import Mathlib

/-!
Verification of the review-thread reconstruction and review-content
classification logic of the PaperHub frontend
(`src/frontend/src/app/papers/[id]/page.tsx`, also present as
`src/unnamed/part_003`).

The embedding is shallow: the `buildReviewTree` function is modelled by
explicit state passing over an identifier-indexed store, JS `Map` lookups
become functions `String → Option _`, the mutable `depth`/`replies` fields
become fields of a `LinkState` record indexed by identifier, and the
recursive in-place `sortReplies` pass becomes a fuel-indexed function
returning `Option` (with `none` modelling the stack-overflow / divergence
of the unbounded JS recursion).  Creation timestamps are modelled as
`Option Nat` (OpenReview epoch milliseconds; `a.cdate || 0` reads the
timestamp and falls back to `0` when it is missing).
-/

/-- A discussion record as consumed by `buildReviewTree`: identifier,
optional reply-to reference and optional creation timestamp.  Only the
fields the thread builder reads are carried. -/
structure Review where
  id : String
  replyto : Option String := none
  cdate : Option Nat := none
deriving DecidableEq, Repr

/-- The identifier → node map built in the first pass
(`reviews.forEach(review => reviewMap.set(review.id, ...))`): a later
`set` for the same identifier overwrites an earlier one, so lookup finds
the last record with the given identifier. -/
def nodeMap : List Review → String → Option Review
  | [], _ => none
  | r :: rest, i =>
    match nodeMap rest i with
    | some x => some x
    | none => if r.id = i then some r else none

/-- The guard `review.replyto && reviewMap.has(review.replyto)`:
the reply-to reference resolves when it is present, non-empty (JS
truthiness of the string) and a key of the node map. -/
def resolves (m : String → Option Review) (r : Review) : Option String :=
  match r.replyto with
  | none => none
  | some p => if p = "" then none else if (m p).isSome then some p else none

/-- The mutable state of the linking pass and of the returned forest:
the `rootReviews` array, and the `replies` and `depth` fields of every
node, indexed by identifier. -/
structure LinkState where
  roots : List String
  children : String → List String
  depth : String → Nat

/-- Initial state: empty root list, every node with empty `replies` and
`depth = 0`. -/
def initState : LinkState := ⟨[], fun _ => [], fun _ => 0⟩

/-- One iteration of the second pass: if the record's reply-to resolves,
set this node's depth to the parent's current depth plus one and append
this node to the parent's replies; otherwise append it to the root list. -/
def linkStep (m : String → Option Review) (s : LinkState) (r : Review) : LinkState :=
  match resolves m r with
  | some p =>
    { s with
      depth := Function.update s.depth r.id (s.depth p + 1)
      children := Function.update s.children p (s.children p ++ [r.id]) }
  | none => { s with roots := s.roots ++ [r.id] }

/-- The second pass: fold `linkStep` over the records in input order. -/
def linkPass (m : String → Option Review) : LinkState → List Review → LinkState
  | s, [] => s
  | s, r :: rest => linkPass m (linkStep m s r) rest

/-- Sort key of a node: its creation timestamp, `0` when missing
(`(a.cdate || 0)`). -/
def keyOf (m : String → Option Review) (i : String) : Nat :=
  match m i with
  | some r => r.cdate.getD 0
  | none => 0

/-- Insert an element into a list sorted by key, before the first element
of strictly larger key and after elements of equal key already present. -/
def insertK {α : Type} (k : α → Nat) (x : α) : List α → List α
  | [] => [x]
  | y :: ys => if k x ≤ k y then x :: y :: ys else y :: insertK k x ys

/-- Stable sort by a natural-number key: the unique output of
`Array.prototype.sort` with comparator `(a, b) => k a - k b` (ES2019
guarantees a stable sort, and the stably sorted permutation is unique). -/
def sortK {α : Type} (k : α → Nat) : List α → List α
  | [] => []
  | x :: xs => insertK k x (sortK k xs)

/-- Shorthand for the per-node `replies` store. -/
abbrev Ch := String → List String

/-- The `reviews.forEach(r => sortReplies(r.replies))` loop: run `f` on
each listed identifier, threading the store, failing when a call fails. -/
def foldSort (f : Ch → String → Option Ch) : Ch → List String → Option Ch
  | ch, [] => some ch
  | ch, c :: cs =>
    match f ch c with
    | none => none
    | some ch2 => foldSort f ch2 cs

/-- `sortReplies` applied to the replies array of node `i`: sort that
array in place, then recurse into every (now sorted) child.  The JS
recursion is unbounded; fuel `0` models its divergence (in practice a
stack-overflow exception). -/
def sortAt (k : String → Nat) : Nat → Ch → String → Option Ch
  | 0, _, _ => none
  | n + 1, ch, i =>
    let s := sortK k (ch i)
    foldSort (fun ch2 c => sortAt k n ch2 c) (Function.update ch i s) s

/-- `buildReviewTree`: build the node map, link every record (second
pass), then sort the root list and recursively sort every reachable
node's replies.  The sorting recursion is run with fuel
`reviews.length + 1`, which suffices whenever the JS recursion
terminates at all (a root-to-node chain uses each of the at most
`reviews.length` parent links at most once unless a cycle is reachable);
`none` therefore models exactly the inputs on which the JS code
diverges. -/
def buildReviewTree (rs : List Review) : Option LinkState :=
  let m := nodeMap rs
  let st := linkPass m initState rs
  let k := keyOf m
  let rts := sortK k st.roots
  (foldSort (fun ch c => sortAt k (rs.length + 1) ch c) st.children rts).map
    (fun ch => ⟨rts, ch, st.depth⟩)

/-!
## Content classifier (`DynamicReviewContent`, `hasValidContent`,
`hasValidContentTree`, `FIELD_CONFIG`, `SKIP_FIELDS`, `fieldToLabel`,
`getFieldValue` in `src/unnamed/part_003`)

A record's open `content` mapping is a JS object
`Record<string, { value: string | number | boolean } | undefined>`,
possibly absent; it is modelled as an optional association list with
optional entries and optional values (`undefined`/`null`).  JS numbers
appearing as field values are modelled as `Int` (`String(val)` agrees
with `toString` on integers; non-integral floats are not modelled).
The `color`/`bgColor` entries of the configuration table are CSS class
strings carried verbatim. -/

/-- A typed field value: `string | number | boolean`. -/
inductive FieldValue where
  | str (s : String)
  | num (n : Int)
  | bool (b : Bool)
deriving DecidableEq, Repr

/-- One field object `{ value: ... }`; the `value` itself may be
`undefined`/`null` at runtime, which the code guards against. -/
structure FieldData where
  value : Option FieldValue
deriving DecidableEq, Repr

/-- The entries of a record's `content` object (keys are unique in a JS
object; the claims do not depend on uniqueness). -/
abbrev Content := List (String × Option FieldData)

/-- `SKIP_FIELDS`: administrative keys never displayed. -/
def SKIP_FIELDS : List String :=
  ["title", "code_of_conduct", "code_of_conduct_acknowledgement",
   "mandatory_acknowledgement", "responsible_reviewing_acknowledgement",
   "withdrawal_confirmation", "revert_withdrawal_confirmation",
   "revert_desk_rejection_confirmation", "desk_reject_comments",
   "retraction_confirmation", "retraction_approval", "ethics_expertise_needed"]

/-- The test `val.trim() === ''`: a string trims to the empty string
exactly when all of its characters are whitespace (JS `trim` strips
leading and trailing whitespace; ASCII whitespace in the data at hand). -/
def isBlank (s : String) : Bool :=
  s.data.all (fun c => c.isWhitespace)

/-- The per-entry validity test inlined in `hasValidContent`: the entry
object exists, its `value` is neither `undefined` nor `null`, and a
string value does not trim to the empty string. -/
def validEntry : Option FieldData → Bool
  | none => false
  | some d =>
    match d.value with
    | none => false
    | some (.str s) => !(isBlank s)
    | some (.num _) => true
    | some (.bool _) => true

/-- `hasValidContent`: false when the content object is absent or empty,
otherwise true when some entry has a non-skipped key and a valid value. -/
def hasValidContent (content : Option Content) : Bool :=
  match content with
  | none => false
  | some entries =>
    if entries.isEmpty then false
    else entries.any (fun e => !(SKIP_FIELDS.contains e.1) && validEntry e.2)

/-- `getFieldValue`: display string of a field value, `null` (here
`none`) when the entry or its value is absent or a string value trims to
empty; booleans render as Yes/No, numbers via `String(val)`, strings
as-is. -/
def getFieldValue : Option FieldData → Option String
  | none => none
  | some d =>
    match d.value with
    | none => none
    | some (.bool b) => some (if b then "Yes" else "No")
    | some (.num n) => some (toString n)
    | some (.str s) => if isBlank s then none else some s

/-- First character upper-cased, rest kept:
`word.charAt(0).toUpperCase() + word.slice(1)`. -/
def capitalizeWord (w : String) : String :=
  match w.data with
  | [] => ""
  | c :: cs => String.mk (c.toUpper :: cs)

/-- `fieldToLabel`: split the key on underscores, capitalize each word,
join with spaces. -/
def fieldToLabel (f : String) : String :=
  String.intercalate " " ((f.splitOn "_").map capitalizeWord)

/-- One row of the fixed configuration table. -/
structure FieldCfg where
  label : String
  color : String
  bgColor : String
  priority : Nat
deriving DecidableEq, Repr

/-- `FIELD_CONFIG`: the fixed (label, style, priority) table keyed by
field name. -/
def FIELD_CONFIG : List (String × FieldCfg) :=
  [("decision", ⟨"Decision", "text-amber-400", "bg-amber-500/10 border-amber-500/20", 1⟩),
   ("metareview", ⟨"Meta Review", "text-blue-400", "bg-blue-500/10 border-blue-500/20", 2⟩),
   ("summary", ⟨"Summary", "text-white/70", "bg-black/20", 3⟩),
   ("strengths", ⟨"Strengths", "text-emerald-400", "bg-emerald-500/5 border-emerald-500/10", 10⟩),
   ("strengths_and_weaknesses", ⟨"Strengths & Weaknesses", "text-cyan-400", "bg-cyan-500/5 border-cyan-500/10", 11⟩),
   ("contribution", ⟨"Contribution", "text-emerald-400", "bg-emerald-500/5 border-emerald-500/10", 12⟩),
   ("originality", ⟨"Originality", "text-emerald-400", "bg-emerald-500/5 border-emerald-500/10", 13⟩),
   ("significance", ⟨"Significance", "text-emerald-400", "bg-emerald-500/5 border-emerald-500/10", 14⟩),
   ("weaknesses", ⟨"Weaknesses", "text-rose-400", "bg-rose-500/5 border-rose-500/10", 20⟩),
   ("limitations", ⟨"Limitations", "text-rose-400", "bg-rose-500/5 border-rose-500/10", 21⟩),
   ("questions", ⟨"Questions", "text-amber-400", "bg-amber-500/5 border-amber-500/10", 30⟩),
   ("questions_for_authors", ⟨"Questions for Authors", "text-amber-400", "bg-amber-500/5 border-amber-500/10", 31⟩),
   ("rating", ⟨"Rating", "text-violet-400", "bg-violet-500/10 border-violet-500/20", 40⟩),
   ("overall_recommendation", ⟨"Overall Recommendation", "text-violet-400", "bg-violet-500/10 border-violet-500/20", 41⟩),
   ("confidence", ⟨"Confidence", "text-white/60", "bg-white/5 border-white/10", 42⟩),
   ("soundness", ⟨"Soundness", "text-white/60", "bg-white/5 border-white/10", 43⟩),
   ("presentation", ⟨"Presentation", "text-white/60", "bg-white/5 border-white/10", 44⟩),
   ("clarity", ⟨"Clarity", "text-white/60", "bg-white/5 border-white/10", 45⟩),
   ("quality", ⟨"Quality", "text-white/60", "bg-white/5 border-white/10", 46⟩),
   ("comment", ⟨"Comment", "text-white/70", "bg-black/20", 50⟩),
   ("rebuttal", ⟨"Rebuttal", "text-emerald-400", "bg-emerald-500/5 border-emerald-500/10", 51⟩),
   ("author_final_remarks", ⟨"Author Final Remarks", "text-emerald-400", "bg-emerald-500/5 border-emerald-500/10", 52⟩),
   ("final_justification", ⟨"Final Justification", "text-blue-400", "bg-blue-500/5 border-blue-500/10", 53⟩),
   ("additional_comments_on_reviewer_discussion", ⟨"Additional Comments", "text-white/60", "bg-white/5 border-white/10", 54⟩),
   ("other_comments_or_suggestions", ⟨"Other Comments", "text-white/60", "bg-white/5 border-white/10", 55⟩),
   ("claims_and_evidence", ⟨"Claims & Evidence", "text-white/60", "bg-white/5 border-white/10", 60⟩),
   ("theoretical_claims", ⟨"Theoretical Claims", "text-white/60", "bg-white/5 border-white/10", 61⟩),
   ("experimental_designs_or_analyses", ⟨"Experimental Designs", "text-white/60", "bg-white/5 border-white/10", 62⟩),
   ("methods_and_evaluation_criteria", ⟨"Methods & Evaluation", "text-white/60", "bg-white/5 border-white/10", 63⟩),
   ("relation_to_broader_scientific_literature", ⟨"Relation to Literature", "text-white/60", "bg-white/5 border-white/10", 64⟩),
   ("essential_references_not_discussed", ⟨"Missing References", "text-orange-400", "bg-orange-500/5 border-orange-500/10", 65⟩),
   ("supplementary_material", ⟨"Supplementary Material", "text-white/60", "bg-white/5 border-white/10", 66⟩),
   ("other_strengths_and_weaknesses", ⟨"Other Points", "text-white/60", "bg-white/5 border-white/10", 67⟩),
   ("ethical_concerns", ⟨"Ethical Concerns", "text-orange-400", "bg-orange-500/10 border-orange-500/20", 70⟩),
   ("ethical_review_concerns", ⟨"Ethics Review Concerns", "text-orange-400", "bg-orange-500/10 border-orange-500/20", 71⟩),
   ("details_of_ethics_concerns", ⟨"Ethics Concerns Details", "text-orange-400", "bg-orange-500/10 border-orange-500/20", 72⟩),
   ("flag_for_ethics_review", ⟨"Ethics Review Flag", "text-orange-400", "bg-orange-500/10 border-orange-500/20", 73⟩),
   ("ethical_review_flag", ⟨"Ethical Review Flag", "text-orange-400", "bg-orange-500/10 border-orange-500/20", 74⟩),
   ("paper_formatting_concerns", ⟨"Formatting Concerns", "text-orange-400", "bg-orange-500/5 border-orange-500/10", 75⟩)]

/-- The fallback row used for unconfigured keys
(`FIELD_CONFIG[key] || { label: fieldToLabel(key), ..., priority: 100 }`). -/
def defaultCfg (k : String) : FieldCfg :=
  ⟨fieldToLabel k, "text-white/60", "bg-white/5 border-white/10", 100⟩

/-- Configuration lookup with fallback. -/
def lookupCfg (k : String) : FieldCfg :=
  match FIELD_CONFIG.lookup k with
  | some cfg => cfg
  | none => defaultCfg k

/-- One classified, displayable field (`{ key, value, ...config }`). -/
structure ClassifiedField where
  key : String
  value : String
  label : String
  color : String
  bgColor : String
  priority : Nat
deriving DecidableEq, Repr

/-- The field list computed in `DynamicReviewContent`: drop skip-set
keys, drop entries whose display value is `null` (`getFieldValue` never
returns a non-null falsy string, so `if (!value)` tests exactly for
`null`), attach the configuration row, and stably sort by priority
ascending.  An absent or empty content object yields the empty list. -/
def classify (content : Option Content) : List ClassifiedField :=
  match content with
  | none => []
  | some entries =>
    sortK (fun f => f.priority)
      ((entries.filter (fun e => !(SKIP_FIELDS.contains e.1))).filterMap
        (fun e =>
          match getFieldValue e.2 with
          | none => none
          | some v =>
            let cfg := lookupCfg e.1
            some ⟨e.1, v, cfg.label, cfg.color, cfg.bgColor, cfg.priority⟩))

/-- A node of the built review tree as the classifier's consumer sees
it: its content mapping and its replies. -/
inductive RThread where
  | node (content : Option Content) (replies : List RThread)

/-- The content mapping of a node. -/
def RThread.contentOf : RThread → Option Content
  | .node c _ => c

/-- The replies of a node. -/
def RThread.repliesOf : RThread → List RThread
  | .node _ rs => rs

/-- `hasValidContentTree`: the node itself has valid content, or some
reply's subtree does (`review.replies.some(r => hasValidContentTree(r))`). -/
def hasValidContentTree : RThread → Bool
  | .node c rs => hasValidContent c || rs.attach.any (fun x => hasValidContentTree x.1)
decreasing_by
  have := List.sizeOf_lt_of_mem x.2
  simp only [RThread.node.sizeOf_spec]
  omega

/-- `s` is `t` itself or a descendant of `t` through `replies`. -/
inductive SelfOrDesc : RThread → RThread → Prop
  | refl (t : RThread) : SelfOrDesc t t
  | child {c : Option Content} {rs : List RThread} {r s : RThread} :
      r ∈ rs → SelfOrDesc r s → SelfOrDesc (.node c rs) s

/-! ### The stable insertion sort: permutation and sortedness -/

theorem insertK_perm {α : Type} (k : α → Nat) (x : α) (l : List α) :
    List.Perm (insertK k x l) (x :: l) := by
  induction l with
  | nil => simp [insertK]
  | cons y ys ih =>
    simp only [insertK]
    split
    · exact List.Perm.refl _
    · exact (ih.cons y).trans (List.Perm.swap x y ys)

theorem sortK_perm {α : Type} (k : α → Nat) (l : List α) :
    List.Perm (sortK k l) l := by
  induction l with
  | nil => simp [sortK]
  | cons x xs ih => exact (insertK_perm k x (sortK k xs)).trans (ih.cons x)

theorem sortK_mem {α : Type} (k : α → Nat) (l : List α) (x : α) :
    x ∈ sortK k l ↔ x ∈ l :=
  (sortK_perm k l).mem_iff

theorem sortK_eq_nil {α : Type} (k : α → Nat) (l : List α) :
    sortK k l = [] ↔ l = [] := by
  constructor
  · intro h
    have := (sortK_perm k l).length_eq
    rw [h] at this
    exact List.eq_nil_of_length_eq_zero this.symm
  · intro h; subst h; simp [sortK]

theorem insertK_sorted {α : Type} (k : α → Nat) (x : α) (l : List α)
    (h : l.Pairwise (fun a b => k a ≤ k b)) :
    (insertK k x l).Pairwise (fun a b => k a ≤ k b) := by
  induction l with
  | nil => simp [insertK]
  | cons y ys ih =>
    rcases List.pairwise_cons.mp h with ⟨hy, hys⟩
    simp only [insertK]
    split
    · rename_i hxy
      refine List.pairwise_cons.mpr ⟨?_, h⟩
      intro b hb
      rcases List.mem_cons.mp hb with hb | hb
      · exact hb ▸ hxy
      · exact le_trans hxy (hy b hb)
    · rename_i hxy
      refine List.pairwise_cons.mpr ⟨?_, ih hys⟩
      intro b hb
      rcases List.mem_cons.mp ((insertK_perm k x ys).mem_iff.mp hb) with hb | hb
      · exact hb ▸ le_of_not_le hxy
      · exact hy b hb

theorem sortK_sorted {α : Type} (k : α → Nat) (l : List α) :
    (sortK k l).Pairwise (fun a b => k a ≤ k b) := by
  induction l with
  | nil => simp [sortK]
  | cons x xs ih => exact insertK_sorted k x (sortK k xs) ih

/-! ### Classifier lemmas -/

/-- The inline validity test of `hasValidContent` agrees with
`getFieldValue` being non-null. -/
theorem validEntry_eq_isSome (d : Option FieldData) :
    validEntry d = (getFieldValue d).isSome := by
  match d with
  | none => rfl
  | some fd =>
    match h : fd.value with
    | none => simp [validEntry, getFieldValue, h]
    | some (.bool b) => simp [validEntry, getFieldValue, h]
    | some (.num n) => simp [validEntry, getFieldValue, h]
    | some (.str s) =>
      simp only [validEntry, getFieldValue, h]
      by_cases hs : isBlank s <;> simp [hs]

/-- `hasValidContent` holds exactly when the classified field list is
non-empty. -/
theorem hasValidContent_iff_classify_ne_nil (c : Option Content) :
    hasValidContent c = true ↔ classify c ≠ [] := by
  match c with
  | none => simp [hasValidContent, classify]
  | some entries =>
    simp only [hasValidContent, classify, ne_eq, sortK_eq_nil]
    rw [List.filterMap_eq_nil_iff]
    constructor
    · intro h
      split at h
      · exact absurd h (by simp)
      · rcases List.any_eq_true.mp h with ⟨e, he, hval⟩
        simp only [Bool.and_eq_true] at hval
        rcases hval with ⟨hskip, hv⟩
        intro hall
        have hmem : e ∈ entries.filter (fun e => !(SKIP_FIELDS.contains e.1)) :=
          List.mem_filter.mpr ⟨he, hskip⟩
        have := hall e hmem
        rw [validEntry_eq_isSome] at hv
        split at this
        · rename_i hnone
          rw [hnone] at hv
          exact absurd hv (by simp)
        · exact absurd this (by simp)
    · intro h
      by_cases hemp : entries.isEmpty
      · exfalso
        apply h
        intro e he
        rw [List.isEmpty_iff] at hemp
        subst hemp
        exact absurd he (by simp)
      · simp only [hemp, if_false]
        by_contra hany
        apply h
        intro e he
        rcases List.mem_filter.mp he with ⟨hmem, hskip⟩
        have : ¬ (!(SKIP_FIELDS.contains e.1) && validEntry e.2) = true := by
          intro hx
          exact hany (List.any_eq_true.mpr ⟨e, hmem, hx⟩)
        rw [Bool.and_eq_true, not_and] at this
        have hv := this hskip
        rw [validEntry_eq_isSome] at hv
        cases hgv : getFieldValue e.2 with
        | none => simp
        | some v => rw [hgv] at hv; simp at hv

/-- Provenance of a classified field: its key passed the skip filter and
its display value is the non-null rendering of an actual entry. -/
theorem classify_mem {c : Option Content} {f : ClassifiedField} (hf : f ∈ classify c) :
    SKIP_FIELDS.contains f.key = false ∧
    ∃ entries d, c = some entries ∧ (f.key, d) ∈ entries ∧ getFieldValue d = some f.value := by
  match c with
  | none => simp [classify] at hf
  | some entries =>
    simp only [classify] at hf
    rw [sortK_mem] at hf
    rcases List.mem_filterMap.mp hf with ⟨e, he, hprod⟩
    rcases List.mem_filter.mp he with ⟨hmem, hskip⟩
    cases hgv : getFieldValue e.2 with
    | none => rw [hgv] at hprod; simp at hprod
    | some v =>
      rw [hgv] at hprod
      simp only [Option.some.injEq] at hprod
      subst hprod
      refine ⟨by simpa using hskip, entries, e.2, rfl, ?_, hgv⟩
      simpa using hmem

/-- The classified list is always sorted by priority ascending. -/
theorem classify_sorted (c : Option Content) :
    (classify c).Pairwise (fun a b => a.priority ≤ b.priority) := by
  match c with
  | none => simp [classify]
  | some entries => exact sortK_sorted _ _

/-- `hasValidContentTree` holds exactly when the node or one of its
descendants has displayable content. -/
theorem hasValidContentTree_iff (t : RThread) :
    hasValidContentTree t = true ↔
      ∃ s, SelfOrDesc t s ∧ classify s.contentOf ≠ [] := by
  induction t using hasValidContentTree.induct with
  | _ c rs ih =>
    rw [hasValidContentTree]
    simp only [Bool.or_eq_true, List.any_eq_true]
    constructor
    · rintro (hc | ⟨⟨r, hr⟩, -, hrt⟩)
      · exact ⟨RThread.node c rs, SelfOrDesc.refl _,
          (hasValidContent_iff_classify_ne_nil c).mp hc⟩
      · rcases (ih ⟨r, hr⟩).mp hrt with ⟨s, hd, hcl⟩
        exact ⟨s, SelfOrDesc.child hr hd, hcl⟩
    · rintro ⟨s, hd, hcl⟩
      cases hd with
      | refl => exact Or.inl ((hasValidContent_iff_classify_ne_nil c).mpr hcl)
      | child hr hd2 =>
        exact Or.inr ⟨⟨_, hr⟩, List.mem_attach _ _, (ih ⟨_, hr⟩).mpr ⟨s, hd2, hcl⟩⟩

/-- The record content of end-to-end scenario 3:
`{title:{value:"x"}, summary:{value:""}, rating:{value:7}}`. -/
def exampleContent3 : Option Content :=
  some [("title", some ⟨some (.str "x")⟩),
        ("summary", some ⟨some (.str "")⟩),
        ("rating", some ⟨some (.num 7)⟩)]

/-- C6: for every discussion record, `hasValidContent` is true exactly
when the field list computed in `DynamicReviewContent` (`classify`) is
non-empty, and for every discussion node `hasValidContentTree` is true
exactly when the node itself or some descendant has displayable content;
both are functions of their input alone. -/
theorem hasValidContent_spec :
    (∀ c : Option Content, hasValidContent c = true ↔ classify c ≠ []) ∧
    (∀ t : RThread, hasValidContentTree t = true ↔
      ∃ s, SelfOrDesc t s ∧ classify s.contentOf ≠ []) :=
  ⟨hasValidContent_iff_classify_ne_nil, hasValidContentTree_iff⟩

/-- C7: the classified field list never contains a skip-set key and
never contains an entry whose value normalizes to empty (each listed
field carries the non-null rendering of an actual entry), and on
`{title:{value:"x"}, summary:{value:""}, rating:{value:7}}` it yields
exactly the rating field. -/
theorem classify_skip_empty_spec :
    (∀ (c : Option Content) (f : ClassifiedField), f ∈ classify c →
      SKIP_FIELDS.contains f.key = false ∧
      ∃ entries d, c = some entries ∧ (f.key, d) ∈ entries ∧
        getFieldValue d = some f.value) ∧
    classify exampleContent3 =
      [⟨"rating", "7", "Rating", "text-violet-400",
        "bg-violet-500/10 border-violet-500/20", 40⟩] :=
  ⟨fun _ _ hf => classify_mem hf, by decide⟩

/-- Witness for C7 at the concrete scenario-3 content and its single
classified field. -/
theorem classify_skip_empty_spec_witness :
    SKIP_FIELDS.contains "rating" = false ∧
    ∃ entries d, exampleContent3 = some entries ∧ ("rating", d) ∈ entries ∧
      getFieldValue d = some "7" :=
  classify_skip_empty_spec.1 exampleContent3
    ⟨"rating", "7", "Rating", "text-violet-400",
     "bg-violet-500/10 border-violet-500/20", 40⟩
    (by decide)

/-- C8: the classified list is sorted by priority ascending; booleans
render as Yes/No, numbers as their string form, non-blank strings as-is;
and an unconfigured key falls back to the title-cased key as label with
default priority 100, which is larger than every configured priority. -/
theorem classify_priority_spec :
    (∀ c : Option Content,
      (classify c).Pairwise (fun a b => a.priority ≤ b.priority)) ∧
    (∀ b : Bool, getFieldValue (some ⟨some (.bool b)⟩) =
      some (if b then "Yes" else "No")) ∧
    (∀ n : Int, getFieldValue (some ⟨some (.num n)⟩) = some (toString n)) ∧
    (∀ s : String, isBlank s = false →
      getFieldValue (some ⟨some (.str s)⟩) = some s) ∧
    (∀ k : String, FIELD_CONFIG.lookup k = none →
      lookupCfg k = defaultCfg k ∧ (defaultCfg k).label = fieldToLabel k ∧
      (defaultCfg k).priority = 100) ∧
    (∀ e ∈ FIELD_CONFIG, e.2.priority < 100) := by
  refine ⟨classify_sorted, fun b => rfl, fun n => rfl, ?_, ?_, by decide⟩
  · intro s hs
    simp [getFieldValue, hs]
  · intro k hk
    exact ⟨by simp [lookupCfg, hk], rfl, rfl⟩

/-- Witness for C8: the string clause at a concrete non-blank string and
the fallback clause at a concrete unconfigured key. -/
theorem classify_priority_spec_witness :
    (getFieldValue (some ⟨some (.str "Good paper")⟩) = some "Good paper") ∧
    (lookupCfg "novelty_discussion" = defaultCfg "novelty_discussion" ∧
     (defaultCfg "novelty_discussion").label = fieldToLabel "novelty_discussion" ∧
     (defaultCfg "novelty_discussion").priority = 100) :=
  ⟨classify_priority_spec.2.2.2.1 "Good paper" (by decide),
   classify_priority_spec.2.2.2.2.1 "novelty_discussion" (by decide)⟩

/-! ### Characterization of the linking pass -/

theorem linkPass_append (m : String → Option Review) (s : LinkState)
    (l1 l2 : List Review) :
    linkPass m s (l1 ++ l2) = linkPass m (linkPass m s l1) l2 := by
  induction l1 generalizing s with
  | nil => simp [linkPass]
  | cons r rest ih => simp [linkPass, ih]

theorem linkPass_roots (m : String → Option Review) (s : LinkState) (rs : List Review) :
    (linkPass m s rs).roots =
      s.roots ++ (rs.filter (fun r => (resolves m r).isNone)).map Review.id := by
  induction rs generalizing s with
  | nil => simp [linkPass]
  | cons r rest ih =>
    simp only [linkPass]
    rw [ih]
    unfold linkStep
    cases hres : resolves m r with
    | some p => simp [List.filter_cons, hres]
    | none => simp [List.filter_cons, hres]

theorem linkPass_children (m : String → Option Review) (s : LinkState)
    (rs : List Review) (p : String) :
    (linkPass m s rs).children p =
      s.children p ++ (rs.filter (fun r => resolves m r == some p)).map Review.id := by
  induction rs generalizing s with
  | nil => simp [linkPass]
  | cons r rest ih =>
    simp only [linkPass]
    rw [ih]
    unfold linkStep
    cases hres : resolves m r with
    | some q =>
      simp only [hres, List.filter_cons]
      by_cases hqp : q = p
      · subst hqp
        simp [Function.update_same]
      · rw [Function.update_noteq (Ne.symm hqp)]
        simp [Option.some.injEq, hqp]
    | none => simp [List.filter_cons, hres]

theorem linkPass_depth_untouched (m : String → Option Review) (s : LinkState)
    (rs : List Review) (x : String) (hx : ∀ r ∈ rs, r.id ≠ x) :
    (linkPass m s rs).depth x = s.depth x := by
  induction rs generalizing s with
  | nil => simp [linkPass]
  | cons r rest ih =>
    simp only [linkPass]
    rw [ih _ (fun r' hr' => hx r' (List.mem_cons_of_mem _ hr'))]
    unfold linkStep
    cases hres : resolves m r with
    | some q => simp [Function.update_noteq (Ne.symm (hx r (List.mem_cons_self _ _)))]
    | none => rfl

theorem nodeMap_isSome_of_mem {rs : List Review} {r : Review} (hr : r ∈ rs) :
    (nodeMap rs r.id).isSome := by
  induction rs with
  | nil => simp at hr
  | cons a rest ih =>
    rcases List.mem_cons.mp hr with h | h
    · subst h
      unfold nodeMap
      cases hm : nodeMap rest r.id with
      | some x => simp
      | none => simp
    · unfold nodeMap
      cases hm : nodeMap rest r.id with
      | some x => simp
      | none =>
        have := ih h
        rw [hm] at this
        simp at this

theorem nodeMap_mem_of_isSome {rs : List Review} {x : String}
    (h : (nodeMap rs x).isSome) : x ∈ rs.map Review.id := by
  induction rs with
  | nil => simp [nodeMap] at h
  | cons a rest ih =>
    unfold nodeMap at h
    cases hm : nodeMap rest x with
    | some r => exact List.mem_cons_of_mem _ (ih (by rw [hm]; simp))
    | none =>
      rw [hm] at h
      by_cases hax : a.id = x
      · simp [hax]
      · rw [if_neg hax] at h
        simp at h

/-- With pairwise-distinct identifiers, the node map finds exactly the
record itself. -/
theorem nodeMap_eq_of_nodup {rs : List Review} (hd : (rs.map Review.id).Nodup)
    {r : Review} (hr : r ∈ rs) : nodeMap rs r.id = some r := by
  induction rs with
  | nil => simp at hr
  | cons a rest ih =>
    simp only [List.map_cons, List.nodup_cons] at hd
    rcases List.mem_cons.mp hr with h | h
    · subst h
      unfold nodeMap
      cases hm : nodeMap rest r.id with
      | some x =>
        exfalso
        exact hd.1 (nodeMap_mem_of_isSome (by rw [hm]; simp))
      | none => simp
    · unfold nodeMap
      rw [ih hd.2 h]

/-! ### The sorting pass permutes each replies list pointwise -/

/-- Pointwise permutation of replies stores. -/
def ChPerm (a b : Ch) : Prop := ∀ j, List.Perm (a j) (b j)

theorem ChPerm.refl (a : Ch) : ChPerm a a := fun _ => List.Perm.refl _

theorem ChPerm.trans {a b c : Ch} (h1 : ChPerm a b) (h2 : ChPerm b c) :
    ChPerm a c := fun j => (h1 j).trans (h2 j)

theorem ChPerm.update_sortK {ch : Ch} (k : String → Nat) (i : String) :
    ChPerm (Function.update ch i (sortK k (ch i))) ch := by
  intro j
  by_cases hj : j = i
  · subst hj
    rw [Function.update_same]
    exact sortK_perm k (ch j)
  · rw [Function.update_noteq hj]

theorem foldSort_perm {f : Ch → String → Option Ch}
    (hf : ∀ ch c ch', f ch c = some ch' → ChPerm ch' ch) :
    ∀ (l : List String) (ch ch' : Ch), foldSort f ch l = some ch' → ChPerm ch' ch := by
  intro l
  induction l with
  | nil =>
    intro ch ch' h
    simp only [foldSort, Option.some.injEq] at h
    exact h ▸ ChPerm.refl ch
  | cons c cs ih =>
    intro ch ch' h
    simp only [foldSort] at h
    cases hfc : f ch c with
    | none => rw [hfc] at h; simp at h
    | some ch2 =>
      rw [hfc] at h
      exact (ih ch2 ch' h).trans (hf ch c ch2 hfc)

theorem sortAt_perm (k : String → Nat) :
    ∀ (n : Nat) (ch : Ch) (i : String) (ch' : Ch),
      sortAt k n ch i = some ch' → ChPerm ch' ch := by
  intro n
  induction n with
  | zero => intro ch i ch' h; simp [sortAt] at h
  | succ n ih =>
    intro ch i ch' h
    simp only [sortAt] at h
    exact (foldSort_perm (fun ch2 c ch3 hc => ih ch2 c ch3 hc) _ _ _ h).trans
      (ChPerm.update_sortK k i)

/-! ### Depth invariant when parents precede their children -/

/-- Every record whose reply-to resolves is preceded in the input list by
the record carrying the parent identifier (`seen` accumulates the
identifiers already processed). -/
def parentsFirstAux (m : String → Option Review) : List Review → List String → Bool
  | [], _ => true
  | r :: rest, seen =>
    (match resolves m r with
     | none => true
     | some p => seen.contains p) && parentsFirstAux m rest (seen ++ [r.id])

/-- Parents precede children in the input list. -/
def parentsFirst (rs : List Review) : Prop :=
  parentsFirstAux (nodeMap rs) rs [] = true

/-- Invariant of the linking pass under distinct identifiers and
parents-before-children order: every root keeps depth 0 and every linked
child's depth is its parent's depth plus one. -/
theorem linkPass_depth_inv (m : String → Option Review) :
    ∀ (post : List Review) (seen : List String) (s : LinkState),
      parentsFirstAux m post seen = true →
      (seen ++ post.map Review.id).Nodup →
      (∀ x ∈ s.roots, s.depth x = 0) →
      (∀ x ∈ s.roots, x ∈ seen) →
      (∀ p c, c ∈ s.children p → s.depth c = s.depth p + 1) →
      (∀ p c, c ∈ s.children p → c ∈ seen ∧ p ∈ seen) →
      (∀ x, x ∉ seen → s.depth x = 0) →
      (∀ x ∈ (linkPass m s post).roots, (linkPass m s post).depth x = 0) ∧
      (∀ p c, c ∈ (linkPass m s post).children p →
        (linkPass m s post).depth c = (linkPass m s post).depth p + 1) := by
  intro post
  induction post with
  | nil =>
    intro seen s _ _ h1 _ h3 _ _
    exact ⟨h1, h3⟩
  | cons r rest ih =>
    intro seen s hpf hnd h1 h2 h3 h4 h5
    simp only [parentsFirstAux, Bool.and_eq_true] at hpf
    have hnd2 : ((seen ++ [r.id]) ++ rest.map Review.id).Nodup := by
      simpa [List.append_assoc] using hnd
    have hrid : r.id ∉ seen := by
      have := List.disjoint_of_nodup_append hnd
      intro hmem
      exact this hmem (by simp)
    simp only [linkPass]
    cases hres : resolves m r with
    | none =>
      rw [hres] at hpf
      refine ih (seen ++ [r.id]) (linkStep m s r) hpf.2 hnd2 ?_ ?_ ?_ ?_ ?_
      · intro x hx
        unfold linkStep at hx ⊢
        rw [hres] at hx ⊢
        rcases List.mem_append.mp hx with hx | hx
        · exact h1 x hx
        · simp only [List.mem_singleton] at hx
          subst hx
          exact h5 r.id hrid
      · intro x hx
        unfold linkStep at hx
        rw [hres] at hx
        rcases List.mem_append.mp hx with hx | hx
        · exact List.mem_append_left _ (h2 x hx)
        · simp only [List.mem_singleton] at hx
          subst hx
          simp
      · intro p c hc
        unfold linkStep at hc ⊢
        rw [hres] at hc ⊢
        exact h3 p c hc
      · intro p c hc
        unfold linkStep at hc
        rw [hres] at hc
        rcases h4 p c hc with ⟨hcm, hpm⟩
        exact ⟨List.mem_append_left _ hcm, List.mem_append_left _ hpm⟩
      · intro x hx
        unfold linkStep
        rw [hres]
        exact h5 x (fun hmem => hx (List.mem_append_left _ hmem))
    | some p =>
      rw [hres] at hpf
      have hpseen : p ∈ seen := by
        have h := hpf.1
        simp only at h
        simpa using h
      have hpr : p ≠ r.id := fun h => hrid (h ▸ hpseen)
      refine ih (seen ++ [r.id]) (linkStep m s r) hpf.2 hnd2 ?_ ?_ ?_ ?_ ?_
      · intro x hx
        unfold linkStep at hx ⊢
        rw [hres] at hx ⊢
        simp only
        have hxs : x ∈ seen := h2 x hx
        have hxr : x ≠ r.id := fun h => hrid (h ▸ hxs)
        rw [Function.update_noteq hxr]
        exact h1 x hx
      · intro x hx
        unfold linkStep at hx
        rw [hres] at hx
        exact List.mem_append_left _ (h2 x hx)
      · intro q c hc
        unfold linkStep at hc ⊢
        rw [hres] at hc ⊢
        simp only at hc ⊢
        by_cases hqp : q = p
        · subst hqp
          rw [Function.update_same] at hc
          rcases List.mem_append.mp hc with hc | hc
          · have hcs := (h4 q c hc).1
            have hqs := (h4 q c hc).2
            have hcr : c ≠ r.id := by rintro rfl; exact hrid hcs
            have hqr : q ≠ r.id := by rintro rfl; exact hrid hqs
            rw [Function.update_noteq hcr, Function.update_noteq hqr]
            exact h3 q c hc
          · simp only [List.mem_singleton] at hc
            subst hc
            rw [Function.update_same, Function.update_noteq hpr]
        · rw [Function.update_noteq hqp] at hc
          have hcs := (h4 q c hc).1
          have hqs := (h4 q c hc).2
          have hcr : c ≠ r.id := by rintro rfl; exact hrid hcs
          have hqr : q ≠ r.id := by rintro rfl; exact hrid hqs
          rw [Function.update_noteq hcr, Function.update_noteq hqr]
          exact h3 q c hc
      · intro q c hc
        unfold linkStep at hc
        rw [hres] at hc
        simp only at hc
        by_cases hqp : q = p
        · subst hqp
          rw [Function.update_same] at hc
          rcases List.mem_append.mp hc with hc | hc
          · rcases h4 q c hc with ⟨hcm, hqm⟩
            exact ⟨List.mem_append_left _ hcm, List.mem_append_left _ hqm⟩
          · simp only [List.mem_singleton] at hc
            subst hc
            exact ⟨by simp, List.mem_append_left _ hpseen⟩
        · rw [Function.update_noteq hqp] at hc
          rcases h4 q c hc with ⟨hcm, hqm⟩
          exact ⟨List.mem_append_left _ hcm, List.mem_append_left _ hqm⟩
      · intro x hx
        unfold linkStep
        rw [hres]
        simp only
        have hxs : x ∉ seen := fun hmem => hx (List.mem_append_left _ hmem)
        have hxr : x ≠ r.id := fun h => hx (h ▸ (by simp : r.id ∈ seen ++ [r.id]))
        rw [Function.update_noteq hxr]
        exact h5 x hxs

/-! ### The reply-to ancestor chain -/

theorem nodeMap_eq_some {rs : List Review} {x : String} {r : Review}
    (h : nodeMap rs x = some r) : r ∈ rs ∧ r.id = x := by
  induction rs with
  | nil => simp [nodeMap] at h
  | cons a rest ih =>
    unfold nodeMap at h
    cases hm : nodeMap rest x with
    | some r2 =>
      rw [hm] at h
      simp only [Option.some.injEq] at h
      subst h
      rcases ih hm with ⟨h1, h2⟩
      exact ⟨List.mem_cons_of_mem _ h1, h2⟩
    | none =>
      rw [hm] at h
      by_cases hax : a.id = x
      · rw [if_pos hax] at h
        simp only [Option.some.injEq] at h
        subst h
        exact ⟨List.mem_cons_self _ _, hax⟩
      · rw [if_neg hax] at h
        simp at h

theorem resolves_eq_some {m : String → Option Review} {r : Review} {p : String}
    (h : resolves m r = some p) :
    r.replyto = some p ∧ p ≠ "" ∧ (m p).isSome := by
  unfold resolves at h
  cases hrt : r.replyto with
  | none => rw [hrt] at h; simp at h
  | some q =>
    rw [hrt] at h
    have h2 : (if q = "" then none
        else if (m q).isSome = true then some q else none) = some p := h
    by_cases hq : q = ""
    · rw [if_pos hq] at h2; simp at h2
    · rw [if_neg hq] at h2
      by_cases hm : (m q).isSome
      · rw [if_pos hm] at h2
        simp only [Option.some.injEq] at h2
        subst h2
        exact ⟨rfl, hq, hm⟩
      · rw [if_neg (by simpa using hm)] at h2
        simp at h2

/-- The parent map induced by the record list: the resolvable reply-to
reference of the record stored in the node map under the identifier. -/
def ancOf (rs : List Review) (i : String) : Option String :=
  match nodeMap rs i with
  | some r => resolves (nodeMap rs) r
  | none => none

/-- The reply-to chain from `i` reaches a record with no resolvable
parent after exactly `d` steps. -/
inductive Grounded (anc : String → Option String) : String → Nat → Prop
  | root {i : String} : anc i = none → Grounded anc i 0
  | step {c p : String} {d : Nat} :
      anc c = some p → Grounded anc p d → Grounded anc c (d + 1)

/-- The parent map is a function, so the chain length is unique. -/
theorem Grounded.unique {anc : String → Option String} :
    ∀ {i : String} {d e : Nat}, Grounded anc i d → Grounded anc i e → d = e := by
  intro i d e h1
  induction h1 generalizing e with
  | root hroot =>
    intro h2
    cases h2 with
    | root _ => rfl
    | step hstep _ => rw [hroot] at hstep; simp at hstep
  | step hstep _ ih =>
    intro h2
    cases h2 with
    | root hroot => rw [hroot] at hstep; simp at hstep
    | step hstep2 hg2 =>
      rw [hstep] at hstep2
      simp only [Option.some.injEq] at hstep2
      subst hstep2
      rw [ih hg2]

/-- A grounded chain yields a duplicate-free list of its `d` proper
chain members, each of which has a parent. -/
theorem Grounded.chain {anc : String → Option String} :
    ∀ {i : String} {d : Nat}, Grounded anc i d →
      ∃ l : List String, l.length = d ∧ l.Nodup ∧
        ∀ x ∈ l, (anc x).isSome ∧ ∃ t, t ≤ d ∧ Grounded anc x t := by
  intro i d h
  induction h with
  | root _ => exact ⟨[], rfl, List.nodup_nil, by simp⟩
  | step hstep hg ih =>
    rename_i c p d2
    rcases ih with ⟨l, hlen, hnd, hall⟩
    refine ⟨c :: l, by simp [hlen], ?_, ?_⟩
    · rw [List.nodup_cons]
      refine ⟨?_, hnd⟩
      intro hc
      rcases (hall c hc).2 with ⟨t, ht, hgt⟩
      have := hgt.unique (Grounded.step hstep hg)
      omega
    · intro x hx
      rcases List.mem_cons.mp hx with hx | hx
      · subst hx
        exact ⟨by rw [hstep]; simp, d2 + 1, le_refl _, Grounded.step hstep hg⟩
      · rcases hall x hx with ⟨hs, t, ht, hgt⟩
        exact ⟨hs, t, Nat.le_succ_of_le ht, hgt⟩

/-- A chain grounded after `d` steps has `d` distinct record
identifiers above it, so `d` is at most the number of records. -/
theorem Grounded.le_length {rs : List Review} {i : String} {d : Nat}
    (h : Grounded (ancOf rs) i d) : d ≤ rs.length := by
  rcases h.chain with ⟨l, hlen, hnd, hall⟩
  have hsub : l ⊆ rs.map Review.id := by
    intro x hx
    have hs := (hall x hx).1
    unfold ancOf at hs
    cases hm : nodeMap rs x with
    | none => rw [hm] at hs; simp at hs
    | some r => exact nodeMap_mem_of_isSome (by rw [hm]; simp)
  have := (List.subperm_of_subset hnd hsub).length_le
  rw [hlen, List.length_map] at this
  exact this

/-- Every chain of replies descending from `i` is shorter than `n`. -/
def heightLt (ch : Ch) : String → Nat → Prop
  | _, 0 => False
  | i, n + 1 => ∀ c ∈ ch i, heightLt ch c n

theorem heightLt_mono {ch : Ch} :
    ∀ {n m : Nat} {i : String}, heightLt ch i n → n ≤ m → heightLt ch i m := by
  intro n m
  induction m generalizing n with
  | zero =>
    intro i h hle
    interval_cases n
    exact h.elim
  | succ m ih =>
    intro i h hle
    match n, h with
    | n2 + 1, h =>
      intro c hc
      exact ih (h c hc) (by omega)

/-! ### Links and roots versus the ancestor map (distinct identifiers) -/

theorem children_anc {rs : List Review} (hd : (rs.map Review.id).Nodup)
    {p c : String}
    (hc : c ∈ (linkPass (nodeMap rs) initState rs).children p) :
    ancOf rs c = some p := by
  rw [linkPass_children] at hc
  simp only [initState, List.nil_append] at hc
  rcases List.mem_map.mp hc with ⟨r, hrf, hrid⟩
  rcases List.mem_filter.mp hrf with ⟨hrm, hres⟩
  have hres2 : resolves (nodeMap rs) r = some p := by
    simpa using hres
  have hmc : nodeMap rs c = some r := by
    rw [← hrid]; exact nodeMap_eq_of_nodup hd hrm
  unfold ancOf
  rw [hmc]
  exact hres2

theorem anc_children {rs : List Review} {p c : String} {r : Review}
    (hm : nodeMap rs c = some r)
    (hres : resolves (nodeMap rs) r = some p) :
    c ∈ (linkPass (nodeMap rs) initState rs).children p := by
  rw [linkPass_children]
  simp only [initState, List.nil_append]
  rcases nodeMap_eq_some hm with ⟨hrm, hrid⟩
  refine List.mem_map.mpr ⟨r, List.mem_filter.mpr ⟨hrm, by simp [hres]⟩, hrid⟩

theorem roots_anc {rs : List Review} (hd : (rs.map Review.id).Nodup)
    {x : String} (hx : x ∈ (linkPass (nodeMap rs) initState rs).roots) :
    ancOf rs x = none := by
  rw [linkPass_roots] at hx
  simp only [initState, List.nil_append] at hx
  rcases List.mem_map.mp hx with ⟨r, hrf, hrid⟩
  rcases List.mem_filter.mp hrf with ⟨hrm, hres⟩
  have hres2 : resolves (nodeMap rs) r = none := by
    simpa [Option.isNone_iff_eq_none] using hres
  have hmc : nodeMap rs x = some r := by
    rw [← hrid]; exact nodeMap_eq_of_nodup hd hrm
  unfold ancOf
  rw [hmc]
  exact hres2

theorem anc_roots {rs : List Review} {x : String} {r : Review}
    (hm : nodeMap rs x = some r)
    (hres : resolves (nodeMap rs) r = none) :
    x ∈ (linkPass (nodeMap rs) initState rs).roots := by
  rw [linkPass_roots]
  simp only [initState, List.nil_append]
  rcases nodeMap_eq_some hm with ⟨hrm, hrid⟩
  exact List.mem_map.mpr ⟨r, List.mem_filter.mpr ⟨hrm, by simp [hres]⟩, hrid⟩

/-- Under distinct identifiers every grounded node has bounded reply
chains: fuel `rs.length + 1 - d` suffices below a node grounded at
depth `d`. -/
theorem grounded_heightLt {rs : List Review} (hd : (rs.map Review.id).Nodup) :
    ∀ (n : Nat) {i : String} {d : Nat}, Grounded (ancOf rs) i d →
      n = rs.length + 1 - d →
      heightLt (linkPass (nodeMap rs) initState rs).children i n := by
  intro n
  induction n with
  | zero =>
    intro i d hg hn
    have := hg.le_length
    omega
  | succ n ih =>
    intro i d hg hn
    intro c hc
    have hanc : ancOf rs c = some i := children_anc hd hc
    have hgc : Grounded (ancOf rs) c (d + 1) := Grounded.step hanc hg
    have hdb := hgc.le_length
    exact ih hgc (by omega)

/-! ### Success of the sorting pass under bounded chain height -/

theorem foldSort_succeeds {base : Ch} {f : Ch → String → Option Ch}
    {P : String → Prop}
    (hf : ∀ (ch : Ch) (c : String), ChPerm ch base → P c →
      ∃ ch', f ch c = some ch' ∧ ChPerm ch' base) :
    ∀ (l : List String) (ch : Ch), (∀ c ∈ l, P c) → ChPerm ch base →
      ∃ ch', foldSort f ch l = some ch' ∧ ChPerm ch' base := by
  intro l
  induction l with
  | nil => intro ch _ hp; exact ⟨ch, rfl, hp⟩
  | cons c cs ih =>
    intro ch hP hp
    rcases hf ch c hp (hP c (List.mem_cons_self _ _)) with ⟨ch2, hfc, hp2⟩
    rcases ih ch2 (fun c2 hc2 => hP c2 (List.mem_cons_of_mem _ hc2)) hp2 with
      ⟨ch', hfold, hp'⟩
    exact ⟨ch', by simp only [foldSort, hfc]; exact hfold, hp'⟩

theorem sortAt_succeeds (k : String → Nat) {base : Ch} :
    ∀ (n : Nat) (i : String) (ch : Ch), heightLt base i n → ChPerm ch base →
      ∃ ch', sortAt k n ch i = some ch' ∧ ChPerm ch' base := by
  intro n
  induction n with
  | zero => intro i ch h _; exact h.elim
  | succ n ih =>
    intro i ch h hp
    have hp1 : ChPerm (Function.update ch i (sortK k (ch i))) base :=
      (ChPerm.update_sortK k i).trans hp
    have hmem : ∀ c ∈ sortK k (ch i), c ∈ base i :=
      fun c hc => (hp i).mem_iff.mp ((sortK_perm k (ch i)).mem_iff.mp hc)
    rcases foldSort_succeeds
      (fun ch2 c hp2 hP => ih c ch2 hP hp2)
      (sortK k (ch i)) (Function.update ch i (sortK k (ch i)))
      (fun c hc => h c (hmem c hc)) hp1 with ⟨ch', hfold, hp'⟩
    exact ⟨ch', by simp only [sortAt]; exact hfold, hp'⟩

/-! ### Reachability from the roots of the returned forest -/

/-- `Reach ch i x`: node `x` lies in the replies subtree rooted at `i`. -/
inductive Reach (ch : Ch) : String → String → Prop
  | refl (i : String) : Reach ch i i
  | head {i c x : String} : c ∈ ch i → Reach ch c x → Reach ch i x

/-- `x` belongs to the forest: it lies in the subtree of some root. -/
def InForest (F : LinkState) (x : String) : Prop :=
  ∃ r ∈ F.roots, Reach F.children r x

theorem Reach.of_perm {ch1 ch2 : Ch} (hp : ChPerm ch1 ch2) :
    ∀ {i x : String}, Reach ch1 i x → Reach ch2 i x := by
  intro i x h
  induction h with
  | refl _ => exact Reach.refl _
  | head hc _ ih => exact Reach.head ((hp _).mem_iff.mp hc) ih

theorem Reach.snoc {ch : Ch} :
    ∀ {r p x : String}, Reach ch r p → x ∈ ch p → Reach ch r x := by
  intro r p x h
  induction h with
  | refl i => intro hx; exact Reach.head hx (Reach.refl _)
  | head hc _ ih => intro hx; exact Reach.head hc (ih hx)

/-- Everything reachable from a grounded node is grounded. -/
theorem reach_grounded {rs : List Review} (hd : (rs.map Review.id).Nodup) :
    ∀ {r x : String},
      Reach (linkPass (nodeMap rs) initState rs).children r x →
      ∀ {d : Nat}, Grounded (ancOf rs) r d → ∃ e, Grounded (ancOf rs) x e := by
  intro r x h
  induction h with
  | refl _ => intro d hg; exact ⟨d, hg⟩
  | head hc _ ih =>
    intro d hg
    exact ih (Grounded.step (children_anc hd hc) hg)

/-- Every grounded record identifier is reachable from some root. -/
theorem grounded_reach {rs : List Review} :
    ∀ {x : String} {d : Nat}, Grounded (ancOf rs) x d →
      (nodeMap rs x).isSome →
      ∃ r ∈ (linkPass (nodeMap rs) initState rs).roots,
        Reach (linkPass (nodeMap rs) initState rs).children r x := by
  intro x d hg
  induction hg with
  | root hanc =>
    rename_i i
    intro hs
    rcases Option.isSome_iff_exists.mp hs with ⟨ri, hmi⟩
    have hres : resolves (nodeMap rs) ri = none := by
      unfold ancOf at hanc
      rw [hmi] at hanc
      exact hanc
    exact ⟨i, anc_roots hmi hres, Reach.refl _⟩
  | step hstep hgp ih =>
    rename_i c p d2
    intro hs
    rcases Option.isSome_iff_exists.mp hs with ⟨rc, hmc⟩
    have hres : resolves (nodeMap rs) rc = some p := by
      unfold ancOf at hstep
      rw [hmc] at hstep
      exact hstep
    have hps : (nodeMap rs p).isSome := (resolves_eq_some hres).2.2
    rcases ih hps with ⟨r0, hr0, hreach⟩
    exact ⟨r0, hr0, hreach.snoc (anc_children hmc hres)⟩

/-- `isPath ch i cs`: `cs` lists the successive nodes of a walk that
starts at `i` and follows replies. -/
def isPath (ch : Ch) : String → List String → Prop
  | _, [] => True
  | i, c :: cs => c ∈ ch i ∧ isPath ch c cs

theorem isPath_of_perm {ch1 ch2 : Ch} (hp : ChPerm ch1 ch2) :
    ∀ (cs : List String) {i : String}, isPath ch1 i cs → isPath ch2 i cs := by
  intro cs
  induction cs with
  | nil => intro i _; trivial
  | cons c cs ih =>
    intro i h
    exact ⟨(hp i).mem_iff.mp h.1, ih h.2⟩

/-- Along a reply walk from a grounded node, groundedness strictly
increases. -/
theorem path_grounded {rs : List Review} (hd : (rs.map Review.id).Nodup) :
    ∀ (cs : List String) {x y : String} {d : Nat},
      isPath (linkPass (nodeMap rs) initState rs).children x cs →
      Grounded (ancOf rs) x d → y ∈ cs →
      ∃ e, d < e ∧ Grounded (ancOf rs) y e := by
  intro cs
  induction cs with
  | nil => intro x y d _ _ hy; simp at hy
  | cons c cs ih =>
    intro x y d hpath hg hy
    have hgc : Grounded (ancOf rs) c (d + 1) :=
      Grounded.step (children_anc hd hpath.1) hg
    rcases List.mem_cons.mp hy with hy | hy
    · subst hy
      exact ⟨d + 1, Nat.lt_succ_self _, hgc⟩
    · rcases ih hpath.2 hgc hy with ⟨e, he, hge⟩
      exact ⟨e, by omega, hge⟩

/-! ### The sorting pass sorts every reachable replies list -/

/-- A replies list sorted by the given key, non-decreasing. -/
def SortedBy (k : String → Nat) (l : List String) : Prop :=
  l.Pairwise (fun a b => k a ≤ k b)

theorem foldSort_writes {k : String → Nat} {f : Ch → String → Option Ch}
    (hf : ∀ ch c ch', f ch c = some ch' →
      ∀ j, ch' j = ch j ∨ SortedBy k (ch' j)) :
    ∀ (l : List String) (ch ch' : Ch), foldSort f ch l = some ch' →
      ∀ j, ch' j = ch j ∨ SortedBy k (ch' j) := by
  intro l
  induction l with
  | nil =>
    intro ch ch' h j
    simp only [foldSort, Option.some.injEq] at h
    exact Or.inl (h ▸ rfl)
  | cons c cs ih =>
    intro ch ch' h j
    simp only [foldSort] at h
    cases hfc : f ch c with
    | none => rw [hfc] at h; simp at h
    | some ch2 =>
      rw [hfc] at h
      rcases ih ch2 ch' h j with h2 | h2
      · rcases hf ch c ch2 hfc j with h3 | h3
        · exact Or.inl (h2.trans h3)
        · exact Or.inr (h2 ▸ h3)
      · exact Or.inr h2

theorem sortAt_writes (k : String → Nat) :
    ∀ (n : Nat) (ch : Ch) (i : String) (ch' : Ch),
      sortAt k n ch i = some ch' →
      ∀ j, ch' j = ch j ∨ SortedBy k (ch' j) := by
  intro n
  induction n with
  | zero => intro ch i ch' h; simp [sortAt] at h
  | succ n ih =>
    intro ch i ch' h j
    simp only [sortAt] at h
    rcases foldSort_writes (fun ch2 c ch3 hc => ih ch2 c ch3 hc) _ _ _ h j with
      h2 | h2
    · by_cases hj : j = i
      · subst hj
        rw [Function.update_same] at h2
        exact Or.inr (h2 ▸ sortK_sorted k (ch j))
      · rw [Function.update_noteq hj] at h2
        exact Or.inl h2
    · exact Or.inr h2

theorem foldSort_reach_sorted {k : String → Nat} {base : Ch}
    {f : Ch → String → Option Ch}
    (hfperm : ∀ ch c ch', f ch c = some ch' → ChPerm ch' ch)
    (hfwrites : ∀ ch c ch', f ch c = some ch' →
      ∀ j, ch' j = ch j ∨ SortedBy k (ch' j))
    (hfreach : ∀ ch c ch', f ch c = some ch' → ChPerm ch base →
      ∀ x, Reach base c x → SortedBy k (ch' x)) :
    ∀ (l : List String) (ch ch' : Ch), foldSort f ch l = some ch' →
      ChPerm ch base →
      ∀ c ∈ l, ∀ x, Reach base c x → SortedBy k (ch' x) := by
  intro l
  induction l with
  | nil => intro ch ch' _ _ c hc; simp at hc
  | cons c0 cs ih =>
    intro ch ch' h hp c hc x hx
    simp only [foldSort] at h
    cases hfc : f ch c0 with
    | none => rw [hfc] at h; simp at h
    | some ch2 =>
      rw [hfc] at h
      have hp2 : ChPerm ch2 base := (hfperm ch c0 ch2 hfc).trans hp
      rcases List.mem_cons.mp hc with hc | hc
      · subst hc
        have hs2 : SortedBy k (ch2 x) := hfreach ch c ch2 hfc hp x hx
        rcases foldSort_writes hfwrites cs ch2 ch' h x with h3 | h3
        · exact h3 ▸ hs2
        · exact h3
      · exact ih ch2 ch' h hp2 c hc x hx

theorem sortAt_reach_sorted (k : String → Nat) {base : Ch} :
    ∀ (n : Nat) (ch : Ch) (i : String) (ch' : Ch),
      sortAt k n ch i = some ch' → ChPerm ch base →
      ∀ x, Reach base i x → SortedBy k (ch' x) := by
  intro n
  induction n with
  | zero => intro ch i ch' h; simp [sortAt] at h
  | succ n ih =>
    intro ch i ch' h hp x hx
    simp only [sortAt] at h
    cases hx with
    | refl =>
      rcases foldSort_writes (fun ch2 c ch3 hc => sortAt_writes k n ch2 c ch3 hc)
        _ _ _ h i with h2 | h2
      · rw [Function.update_same] at h2
        exact h2 ▸ sortK_sorted k (ch i)
      · exact h2
    | head hc hcx =>
      rename_i c
      have hcs : c ∈ sortK k (ch i) := by
        rw [sortK_mem]
        exact (hp i).mem_iff.mpr hc
      exact foldSort_reach_sorted
        (fun ch2 c2 ch3 h2 => sortAt_perm k n ch2 c2 ch3 h2)
        (fun ch2 c2 ch3 h2 => sortAt_writes k n ch2 c2 ch3 h2)
        (fun ch2 c2 ch3 h2 hp2 => ih ch2 c2 ch3 h2 hp2)
        _ _ _ h ((ChPerm.update_sortK k i).trans hp) c hcs x hcx

/-! ### Assembling `buildReviewTree` -/

theorem buildReviewTree_eq_some {rs : List Review} {F : LinkState}
    (hF : buildReviewTree rs = some F) :
    ∃ ch', foldSort
        (fun ch c => sortAt (keyOf (nodeMap rs)) (rs.length + 1) ch c)
        (linkPass (nodeMap rs) initState rs).children
        (sortK (keyOf (nodeMap rs)) (linkPass (nodeMap rs) initState rs).roots)
        = some ch' ∧
      F = ⟨sortK (keyOf (nodeMap rs)) (linkPass (nodeMap rs) initState rs).roots,
           ch', (linkPass (nodeMap rs) initState rs).depth⟩ := by
  simp only [buildReviewTree, Option.map_eq_some'] at hF
  rcases hF with ⟨ch', h1, h2⟩
  exact ⟨ch', h1, h2.symm⟩

/-- With pairwise-distinct identifiers no cycle is reachable from a
root, so the sorting recursion terminates and `buildReviewTree` returns
a forest whose roots list is the sorted root list of the linking pass,
whose replies store is a pointwise permutation of the linking pass's,
and whose depths are the linking pass's. -/
theorem buildReviewTree_some_of_nodup {rs : List Review}
    (hd : (rs.map Review.id).Nodup) :
    ∃ F, buildReviewTree rs = some F ∧
      F.roots = sortK (keyOf (nodeMap rs))
        (linkPass (nodeMap rs) initState rs).roots ∧
      ChPerm F.children (linkPass (nodeMap rs) initState rs).children ∧
      F.depth = (linkPass (nodeMap rs) initState rs).depth := by
  have hall : ∀ c ∈ sortK (keyOf (nodeMap rs))
      (linkPass (nodeMap rs) initState rs).roots,
      heightLt (linkPass (nodeMap rs) initState rs).children c (rs.length + 1) := by
    intro c hc
    rw [sortK_mem] at hc
    have hg : Grounded (ancOf rs) c 0 := Grounded.root (roots_anc hd hc)
    exact grounded_heightLt hd (rs.length + 1) hg (by omega)
  rcases foldSort_succeeds
    (fun ch c hp hP => sortAt_succeeds (keyOf (nodeMap rs)) (rs.length + 1) c ch hP hp)
    (sortK (keyOf (nodeMap rs)) (linkPass (nodeMap rs) initState rs).roots)
    (linkPass (nodeMap rs) initState rs).children
    hall (ChPerm.refl _) with ⟨ch', hfold, hperm⟩
  refine ⟨⟨sortK (keyOf (nodeMap rs)) (linkPass (nodeMap rs) initState rs).roots,
      ch', (linkPass (nodeMap rs) initState rs).depth⟩, ?_, rfl, hperm, rfl⟩
  simp only [buildReviewTree, hfold, Option.map_some']

/-- With distinct identifiers, two records sharing an identifier are the
same record. -/
theorem nodup_id_inj {rs : List Review} (hd : (rs.map Review.id).Nodup)
    {r1 r2 : Review} (h1 : r1 ∈ rs) (h2 : r2 ∈ rs) (hid : r1.id = r2.id) :
    r1 = r2 := by
  have e1 := nodeMap_eq_of_nodup hd h1
  have e2 := nodeMap_eq_of_nodup hd h2
  rw [hid] at e1
  rw [e1] at e2
  exact (Option.some.injEq _ _).mp e2

/-- A sorting recursion started at a node listed among its own replies
runs out of any amount of fuel: the JS recursion diverges. -/
theorem sortAt_self_none (k : String → Nat) :
    ∀ (n : Nat) (ch : Ch) (i : String), i ∈ ch i → sortAt k n ch i = none := by
  intro n
  induction n with
  | zero => intro ch i _; rfl
  | succ n ih =>
    intro ch i hi
    have hfold : ∀ (l : List String) (ch0 : Ch), i ∈ l → i ∈ ch0 i →
        foldSort (fun ch2 c => sortAt k n ch2 c) ch0 l = none := by
      intro l
      induction l with
      | nil => intro ch0 hl _; simp at hl
      | cons c cs ihl =>
        intro ch0 hl hch0
        simp only [foldSort]
        cases hfc : sortAt k n ch0 c with
        | none => rfl
        | some ch2 =>
          have hci : c ≠ i := by
            rintro rfl
            rw [ih ch0 c hch0] at hfc
            exact Option.noConfusion hfc
          have hil : i ∈ cs := by
            rcases List.mem_cons.mp hl with h | h
            · exact absurd h.symm hci
            · exact h
          exact ihl ch2 hil (((sortAt_perm k n ch0 c ch2 hfc) i).mem_iff.mpr hch0)
    simp only [sortAt]
    refine hfold _ _ ?_ ?_
    · rw [sortK_mem]; exact hi
    · rw [Function.update_same, sortK_mem]; exact hi

theorem keyOf_eq (m : String → Option Review) (i : String) :
    keyOf m i = ((m i).bind (fun r => r.cdate)).getD 0 := by
  cases hmi : m i <;> simp [keyOf, hmi]

/-! ### Concrete inputs used as counterexamples -/

/-- A self-reply made reachable by a duplicate identifier. -/
def cexCycle : List Review := [⟨"a", some "a", none⟩, ⟨"a", none, none⟩]

/-- A reachable self-reply among healthy records. -/
def cexThrow : List Review :=
  [⟨"x", some "x", none⟩, ⟨"x", none, some 4⟩, ⟨"z", some "", none⟩]

/-- A root that is its own child. -/
def cexAcyclic : List Review := [⟨"b", some "b", none⟩, ⟨"b", none, none⟩]

/-- Child records listed before their parents. -/
def cexOrder : List Review :=
  [⟨"c", some "b", none⟩, ⟨"b", some "a", none⟩, ⟨"a", none, none⟩]

/-- A single self-replying record. -/
def cexSelf : List Review := [⟨"a", some "a", none⟩]

/-- The forest built from `cexOrder`. -/
def cexOrderF : LinkState := (buildReviewTree cexOrder).getD initState

/-! ### Claim theorems for the thread builder -/

/-- C1 (amended): when identifiers are pairwise distinct and every
record with a resolvable parent appears after its parent's record,
every root of the returned forest has depth 0 and every linked child's
depth is its parent's depth plus one.  (As stated for arbitrary input
order the claim fails: see the counterexample.) -/
theorem buildReviewTree_depth_invariant (rs : List Review)
    (hd : (rs.map Review.id).Nodup) (hp : parentsFirst rs) :
    ∃ F, buildReviewTree rs = some F ∧
      (∀ x ∈ F.roots, F.depth x = 0) ∧
      (∀ p c, c ∈ F.children p → F.depth c = F.depth p + 1) := by
  rcases buildReviewTree_some_of_nodup hd with ⟨F, hF, hroots, hperm, hdepth⟩
  have hinv := linkPass_depth_inv (nodeMap rs) rs [] initState hp
    (by simpa using hd)
    (by intro x hx; simp [initState] at hx)
    (by intro x hx; simp [initState] at hx)
    (by intro p c hc; simp [initState] at hc)
    (by intro p c hc; simp [initState] at hc)
    (by intro x _; rfl)
  refine ⟨F, hF, ?_, ?_⟩
  · intro x hx
    rw [hdepth]
    refine hinv.1 x ?_
    rw [hroots, sortK_mem] at hx
    exact hx
  · intro p c hc
    rw [hdepth]
    exact hinv.2 p c ((hperm p).mem_iff.mp hc)

/-- C1 counterexample: with input order child-before-parent
(`cexOrder`), node `c` is a child of `b` but its depth is not
`depth b + 1` (both are 1), refuting the order-independence claim. -/
theorem buildReviewTree_depth_order_cex :
    buildReviewTree cexOrder = some cexOrderF ∧
    "c" ∈ cexOrderF.children "b" ∧
    ¬ cexOrderF.depth "c" = cexOrderF.depth "b" + 1 :=
  ⟨rfl, by decide, by decide⟩

/-- Witness for C1 at a concrete parents-first input. -/
theorem buildReviewTree_depth_invariant_witness :
    ∃ F, buildReviewTree [⟨"p", none, some 1⟩, ⟨"q", some "p", some 2⟩] = some F ∧
      (∀ x ∈ F.roots, F.depth x = 0) ∧
      (∀ p c, c ∈ F.children p → F.depth c = F.depth p + 1) :=
  buildReviewTree_depth_invariant _ (by decide) (by unfold parentsFirst; decide)

/-- C3 (amended): with pairwise-distinct identifiers no reply cycle is
reachable from a root, so the recursive child-sorting phase terminates
and `buildReviewTree` returns a forest.  (For arbitrary inputs the claim
fails: see the counterexample.) -/
theorem buildReviewTree_terminates_of_nodup (rs : List Review)
    (hd : (rs.map Review.id).Nodup) : (buildReviewTree rs).isSome := by
  rcases buildReviewTree_some_of_nodup hd with ⟨F, hF, -⟩
  rw [hF]
  rfl

/-- C3 counterexample: on `cexCycle` (duplicate identifier making a
self-reply reachable from a root) the sorting recursion diverges and no
forest is returned. -/
theorem buildReviewTree_divergence_cex : buildReviewTree cexCycle = none :=
  Option.isNone_iff_eq_none.mp (by decide)

/-- The `none` of the counterexample is genuine divergence, not an
artifact of the chosen fuel: no amount of fuel completes the recursion
on the self-linked reachable node of `cexCycle`. -/
theorem cexCycle_diverges :
    ∀ n : Nat, sortAt (keyOf (nodeMap cexCycle)) n
      (linkPass (nodeMap cexCycle) initState cexCycle).children "a" = none :=
  fun n => sortAt_self_none _ n _ _ (by decide)

/-- Witness for C3 at a concrete duplicate-free input. -/
theorem buildReviewTree_terminates_witness :
    (buildReviewTree [⟨"w1", none, some 10⟩]).isSome :=
  buildReviewTree_terminates_of_nodup _ (by decide)

/-- C2 (amended): with pairwise-distinct identifiers a record whose
reply-to is its own (non-empty) identifier does not make the builder
loop forever, but it is not treated as a root: it is appended to its own
replies, gets depth 1, and is absent from the root list.  (The claim's
"treated as a root with depth 0" fails: see the counterexample.) -/
theorem buildReviewTree_selfref (rs : List Review) (r : Review)
    (hd : (rs.map Review.id).Nodup) (hr : r ∈ rs)
    (hself : r.replyto = some r.id) (hne : r.id ≠ "") :
    ∃ F, buildReviewTree rs = some F ∧ r.id ∉ F.roots ∧
      r.id ∈ F.children r.id ∧ F.depth r.id = 1 := by
  rcases buildReviewTree_some_of_nodup hd with ⟨F, hF, hroots, hperm, hdepth⟩
  set m := nodeMap rs with hm_def
  have hm : m r.id = some r := nodeMap_eq_of_nodup hd hr
  have hres : resolves m r = some r.id := by
    have h2 : resolves m r =
        (if r.id = "" then none
         else if (m r.id).isSome = true then some r.id else none) := by
      unfold resolves
      rw [hself]
    rw [h2, if_neg hne, if_pos (by rw [hm]; rfl)]
  refine ⟨F, hF, ?_, ?_, ?_⟩
  · rw [hroots, sortK_mem]
    intro hmem
    rw [linkPass_roots] at hmem
    simp only [initState, List.nil_append] at hmem
    rcases List.mem_map.mp hmem with ⟨r2, hr2f, hr2id⟩
    rcases List.mem_filter.mp hr2f with ⟨hr2m, hr2res⟩
    have heq : r2 = r := nodup_id_inj hd hr2m hr hr2id
    subst heq
    rw [hres] at hr2res
    simp at hr2res
  · exact (hperm r.id).mem_iff.mpr (anc_children hm hres)
  · rw [hdepth]
    rcases List.append_of_mem hr with ⟨pre, post, hsplit⟩
    have hd2 : ((pre.map Review.id) ++ r.id :: (post.map Review.id)).Nodup := by
      have := hd
      rw [hsplit] at this
      simpa using this
    have hpre : ∀ q ∈ pre, q.id ≠ r.id := by
      intro q hq hqr
      have hdisj := List.disjoint_of_nodup_append hd2
      exact hdisj (List.mem_map.mpr ⟨q, hq, hqr⟩) (List.mem_cons_self _ _)
    have hpost : ∀ q ∈ post, q.id ≠ r.id := by
      intro q hq hqr
      have h3 := (List.nodup_append.mp hd2).2.1
      rw [List.nodup_cons] at h3
      exact h3.1 (List.mem_map.mpr ⟨q, hq, hqr⟩)
    rw [hsplit, linkPass_append]
    simp only [linkPass]
    rw [linkPass_depth_untouched m _ post r.id hpost]
    have h3 : (linkStep m (linkPass m initState pre) r).depth =
        Function.update (linkPass m initState pre).depth r.id
          ((linkPass m initState pre).depth r.id + 1) := by
      unfold linkStep
      rw [hres]
    rw [h3, Function.update_same,
      linkPass_depth_untouched m initState pre r.id hpre]
    rfl

/-- C2 counterexample: for the single self-replying record `cexSelf`,
the returned forest has an empty root list and the record's depth is 1,
so the record is not treated as a root of depth 0. -/
theorem buildReviewTree_selfref_cex :
    (buildReviewTree cexSelf).map (fun F => F.roots) = some [] ∧
    (buildReviewTree cexSelf).map (fun F => F.depth "a") = some 1 := by
  exact ⟨by decide, by decide⟩

/-- Witness for C2 at a concrete self-replying record. -/
theorem buildReviewTree_selfref_witness :
    ∃ F, buildReviewTree [⟨"s", some "s", none⟩] = some F ∧
      "s" ∉ F.roots ∧ "s" ∈ F.children "s" ∧ F.depth "s" = 1 :=
  buildReviewTree_selfref _ ⟨"s", some "s", none⟩ (by decide)
    (List.mem_singleton.mpr rfl) rfl (by decide)

/-- C4: in any returned forest, the root list is sorted by creation
timestamp non-decreasing, every reachable node's replies list is sorted
likewise, and a record with a missing timestamp carries the minimum key
(0), so it sorts first rather than last. -/
theorem buildReviewTree_sorted (rs : List Review) (F : LinkState)
    (hF : buildReviewTree rs = some F) :
    SortedBy (keyOf (nodeMap rs)) F.roots ∧
    (∀ x, InForest F x → SortedBy (keyOf (nodeMap rs)) (F.children x)) ∧
    (∀ i j, (nodeMap rs i).isSome →
      ((nodeMap rs i).bind (fun r => r.cdate)) = none →
      keyOf (nodeMap rs) i ≤ keyOf (nodeMap rs) j) := by
  rcases buildReviewTree_eq_some hF with ⟨ch', hfold, hFeq⟩
  subst hFeq
  refine ⟨sortK_sorted _ _, ?_, ?_⟩
  · rintro x ⟨r, hr, hreach⟩
    have hperm : ChPerm ch' (linkPass (nodeMap rs) initState rs).children :=
      foldSort_perm (fun ch c ch2 h => sortAt_perm _ _ ch c ch2 h) _ _ _ hfold
    have hr2 : r ∈ sortK (keyOf (nodeMap rs))
        (linkPass (nodeMap rs) initState rs).roots := hr
    exact foldSort_reach_sorted
      (fun a b c h => sortAt_perm _ _ a b c h)
      (fun a b c h => sortAt_writes _ _ a b c h)
      (fun a b c h hp2 => sortAt_reach_sorted _ _ a b c h hp2)
      _ _ _ hfold (ChPerm.refl _) r hr2 x (hreach.of_perm hperm)
  · intro i j _ hcd
    rw [keyOf_eq, hcd]
    exact Nat.zero_le _

/-- The forest of the C4 witness input. -/
def sortedWitnessF : LinkState :=
  (buildReviewTree [⟨"m1", none, some 30⟩, ⟨"m2", some "m1", some 9⟩,
    ⟨"m3", some "m1", none⟩]).getD initState

/-- Witness for C4 at a concrete input. -/
theorem buildReviewTree_sorted_witness :
    SortedBy (keyOf (nodeMap [⟨"m1", none, some 30⟩, ⟨"m2", some "m1", some 9⟩,
      ⟨"m3", some "m1", none⟩])) sortedWitnessF.roots ∧
    (∀ x, InForest sortedWitnessF x →
      SortedBy (keyOf (nodeMap [⟨"m1", none, some 30⟩, ⟨"m2", some "m1", some 9⟩,
        ⟨"m3", some "m1", none⟩])) (sortedWitnessF.children x)) ∧
    (∀ i j, (nodeMap [⟨"m1", none, some 30⟩, ⟨"m2", some "m1", some 9⟩,
        ⟨"m3", some "m1", none⟩] i).isSome →
      ((nodeMap [⟨"m1", none, some 30⟩, ⟨"m2", some "m1", some 9⟩,
        ⟨"m3", some "m1", none⟩] i).bind (fun r => r.cdate)) = none →
      keyOf (nodeMap [⟨"m1", none, some 30⟩, ⟨"m2", some "m1", some 9⟩,
        ⟨"m3", some "m1", none⟩]) i ≤
      keyOf (nodeMap [⟨"m1", none, some 30⟩, ⟨"m2", some "m1", some 9⟩,
        ⟨"m3", some "m1", none⟩]) j) :=
  buildReviewTree_sorted _ sortedWitnessF rfl

/-- C5 (amended): with pairwise-distinct identifiers `buildReviewTree`
returns a forest, and any record whose declared non-empty parent
identifier matches no record in the node map lands in the root list.
(The unconditional "never throws" fails: see the counterexample.) -/
theorem buildReviewTree_dangling_roots (rs : List Review)
    (hd : (rs.map Review.id).Nodup) :
    ∃ F, buildReviewTree rs = some F ∧
      ∀ r ∈ rs, ∀ p, r.replyto = some p → p ≠ "" → nodeMap rs p = none →
        r.id ∈ F.roots := by
  rcases buildReviewTree_some_of_nodup hd with ⟨F, hF, hroots, hperm, hdepth⟩
  refine ⟨F, hF, ?_⟩
  intro r hr p hrt hne hnm
  have hres : resolves (nodeMap rs) r = none := by
    have h2 : resolves (nodeMap rs) r =
        (if p = "" then none
         else if (nodeMap rs p).isSome = true then some p else none) := by
      unfold resolves
      rw [hrt]
    rw [h2, if_neg hne, hnm]
    rfl
  rw [hroots, sortK_mem]
  exact anc_roots (nodeMap_eq_of_nodup hd hr) hres

/-- C5 counterexample: on `cexThrow` (a reachable self-reply beside
healthy records) the sorting recursion diverges — the JS call overflows
the stack instead of returning a best-effort forest. -/
theorem buildReviewTree_throws_cex : buildReviewTree cexThrow = none :=
  Option.isNone_iff_eq_none.mp (by decide)

/-- The divergence of `cexThrow` holds for every amount of fuel. -/
theorem cexThrow_diverges :
    ∀ n : Nat, sortAt (keyOf (nodeMap cexThrow)) n
      (linkPass (nodeMap cexThrow) initState cexThrow).children "x" = none :=
  fun n => sortAt_self_none _ n _ _ (by decide)

/-- Witness for C5 at a concrete dangling-reference record. -/
theorem buildReviewTree_dangling_witness :
    ∃ F, buildReviewTree [⟨"w2", some "nope", none⟩] = some F ∧
      ∀ r ∈ [(⟨"w2", some "nope", none⟩ : Review)], ∀ p,
        r.replyto = some p → p ≠ "" →
        nodeMap [⟨"w2", some "nope", none⟩] p = none → r.id ∈ F.roots :=
  buildReviewTree_dangling_roots _ (by decide)

/-- C9 (amended): with pairwise-distinct identifiers, no node reachable
from a root of the returned forest lies on a reply walk starting at
itself — the reachable part of the forest is acyclic, so recursive
traversals of it terminate.  (For arbitrary inputs the claim fails: see
the counterexample.) -/
theorem buildReviewTree_acyclic (rs : List Review) (F : LinkState)
    (hd : (rs.map Review.id).Nodup) (hF : buildReviewTree rs = some F) :
    ∀ x, InForest F x → ∀ cs, isPath F.children x cs → x ∉ cs := by
  rcases buildReviewTree_eq_some hF with ⟨ch', hfold, hFeq⟩
  subst hFeq
  have hperm : ChPerm ch' (linkPass (nodeMap rs) initState rs).children :=
    foldSort_perm (fun ch c ch2 h => sortAt_perm _ _ ch c ch2 h) _ _ _ hfold
  rintro x ⟨r, hr, hreach⟩ cs hpath hmem
  have hr2 : r ∈ (linkPass (nodeMap rs) initState rs).roots := by
    have : r ∈ sortK (keyOf (nodeMap rs))
        (linkPass (nodeMap rs) initState rs).roots := hr
    rwa [sortK_mem] at this
  have hg0 : Grounded (ancOf rs) r 0 := Grounded.root (roots_anc hd hr2)
  rcases reach_grounded hd (hreach.of_perm hperm) hg0 with ⟨d, hgx⟩
  rcases path_grounded hd cs (isPath_of_perm hperm cs hpath) hgx hmem with
    ⟨e, he, hge⟩
  have := hgx.unique hge
  omega

/-- C9 counterexample: on `cexAcyclic` the duplicate identifier makes
`b` a root that is also its own child, so a reachable node is its own
descendant and the sorting traversal diverges. -/
theorem buildReviewTree_acyclic_cex :
    "b" ∈ (linkPass (nodeMap cexAcyclic) initState cexAcyclic).roots ∧
    "b" ∈ (linkPass (nodeMap cexAcyclic) initState cexAcyclic).children "b" ∧
    buildReviewTree cexAcyclic = none :=
  ⟨by decide, by decide, Option.isNone_iff_eq_none.mp (by decide)⟩

/-- The divergence of `cexAcyclic` holds for every amount of fuel. -/
theorem cexAcyclic_diverges :
    ∀ n : Nat, sortAt (keyOf (nodeMap cexAcyclic)) n
      (linkPass (nodeMap cexAcyclic) initState cexAcyclic).children "b" = none :=
  fun n => sortAt_self_none _ n _ _ (by decide)

/-- The forest of the C9 witness input. -/
def acyclicWitnessF : LinkState :=
  (buildReviewTree [⟨"k1", none, none⟩, ⟨"k2", some "k1", some 3⟩]).getD initState

/-- Witness for C9: in the concrete forest, root `k1` is reachable, the
walk to its child `k2` is a path, and `k1` does not occur on it. -/
theorem buildReviewTree_acyclic_witness :
    "k1" ∉ (["k2"] : List String) :=
  buildReviewTree_acyclic [⟨"k1", none, none⟩, ⟨"k2", some "k1", some 3⟩]
    acyclicWitnessF (by decide) rfl "k1"
    ⟨"k1", by decide, Reach.refl _⟩ ["k2"] ⟨by decide, trivial⟩

/-- C10: with pairwise-distinct identifiers, a record is reachable from
some root of the returned forest exactly when its reply-to chain is
grounded — i.e. reaches a record with empty or unresolvable reply-to in
finitely many steps, never entering a cycle.  Records whose chain enters
a cycle are in no root's subtree, so the forest may omit records. -/
theorem buildReviewTree_reachable_iff (rs : List Review) (F : LinkState)
    (hd : (rs.map Review.id).Nodup) (hF : buildReviewTree rs = some F) :
    ∀ r ∈ rs, (InForest F r.id ↔ ∃ d, Grounded (ancOf rs) r.id d) := by
  rcases buildReviewTree_eq_some hF with ⟨ch', hfold, hFeq⟩
  subst hFeq
  have hperm : ChPerm ch' (linkPass (nodeMap rs) initState rs).children :=
    foldSort_perm (fun ch c ch2 h => sortAt_perm _ _ ch c ch2 h) _ _ _ hfold
  intro r hr
  constructor
  · rintro ⟨r0, hr0, hreach⟩
    have hr02 : r0 ∈ (linkPass (nodeMap rs) initState rs).roots := by
      have : r0 ∈ sortK (keyOf (nodeMap rs))
          (linkPass (nodeMap rs) initState rs).roots := hr0
      rwa [sortK_mem] at this
    exact reach_grounded hd (hreach.of_perm hperm)
      (Grounded.root (roots_anc hd hr02))
  · rintro ⟨d, hg⟩
    rcases grounded_reach hg (nodeMap_isSome_of_mem hr) with ⟨r0, hr0, hreach⟩
    refine ⟨r0, ?_, hreach.of_perm (fun j => (hperm j).symm)⟩
    have : r0 ∈ sortK (keyOf (nodeMap rs))
        (linkPass (nodeMap rs) initState rs).roots := by
      rw [sortK_mem]
      exact hr0
    exact this

/-- The forest of the C10 witness input. -/
def reachWitnessF : LinkState :=
  (buildReviewTree [⟨"g1", none, some 2⟩, ⟨"g2", some "g1", some 3⟩]).getD initState

/-- Witness for C10 at the concrete record `g2` of the witness input. -/
theorem buildReviewTree_reachable_witness :
    InForest reachWitnessF "g2" ↔
      ∃ d, Grounded (ancOf [(⟨"g1", none, some 2⟩ : Review),
        ⟨"g2", some "g1", some 3⟩]) "g2" d :=
  buildReviewTree_reachable_iff [⟨"g1", none, some 2⟩, ⟨"g2", some "g1", some 3⟩]
    reachWitnessF (by decide) rfl ⟨"g2", some "g1", some 3⟩ (by decide)
